import Mathlib

/-!
Shallow embedding of `src/ton_track.py` (TON wallet transaction tracker).

A fetched record is a JSON dictionary; the tracker reads
`tx["transaction_id"]["hash"]` and `tx["transaction_id"]["lt"]`, both of
which may be missing (`.get` returns `None`).  We model a record as a pair
of optional fields; the logical time is modelled as an optional integer
(in the real API it is a decimal string, converted with `int(...)` before
every comparison).

Engine state (`TONWalletTracker.__init__`, lines 10-13): `last_lt` (the
watermark, `None` until the first observation) and `processed_hashes` (a
Python `set` of hash strings).  We model the set as a list with
membership-guarded insertion, which has exactly the membership semantics
of `set.add`.
-/

namespace TonTrack

structure Tx where
  hash : Option String
  lt   : Option Int
deriving DecidableEq, Repr

/-- Python truthiness of `tx_hash` in `if (tx_hash and ...)`:
`None` and the empty string are falsy. -/
def truthyHash (tx : Tx) : Bool :=
  match tx.hash with
  | none => false
  | some h => h ≠ ""

/-- The raw hash string stored into `processed_hashes` (only ever used when
`truthyHash` holds, in which case it is the `some` payload). -/
def hashKey (tx : Tx) : String := tx.hash.getD ""

/-- The sort key `int(x.get("transaction_id", {}).get("lt", 0))`
(line 124 / 222): a missing `lt` defaults to `0`. -/
def ltKey (tx : Tx) : Int := tx.lt.getD 0

structure EngineState where
  last_lt : Option Int
  processed_hashes : List String
deriving DecidableEq, Repr

/-- State built by `__init__`: `last_lt = None`, `processed_hashes = set()`. -/
def initState : EngineState := ⟨none, []⟩

/-- `set.add`: insert if absent (membership semantics of a Python set). -/
def setInsert (h : String) (hs : List String) : List String :=
  if h ∈ hs then hs else h :: hs

/-- Outcome of evaluating the classification condition (lines 117-118 /
216-217) on one record.  `crash` is the `TypeError` raised by
`int(tx_lt)` when `tx_lt` is `None` while `self.last_lt` is set (the
short-circuit order of `and`/`or` is preserved: a falsy hash or a seen
hash never reaches the `int` conversion, and an unset watermark
short-circuits the comparison). -/
inductive ClassifyOutcome
  | notNew
  | isNew
  | crash
deriving DecidableEq, Repr

def classifyTx (s : EngineState) (tx : Tx) : ClassifyOutcome :=
  if truthyHash tx = false then .notNew
  else if hashKey tx ∈ s.processed_hashes then .notNew
  else
    match s.last_lt with
    | none => .isNew
    | some w =>
      match tx.lt with
      | none => .crash
      | some l => if w < l then .isNew else .notNew

/-- The Boolean value of the logical-time guard
`(self.last_lt is None or int(tx_lt) > int(self.last_lt))`; its value is
only meaningful where the Python expression does not raise, i.e. where
`classifyTx` is not `crash`. -/
def ltOkB (w : Option Int) (tx : Tx) : Bool :=
  match w with
  | none => true
  | some v =>
    match tx.lt with
    | none => false
    | some l => v < l

/-- The classification loop (lines 112-120 / 212-219): walk the page in
order, append new records to `new_transactions`, add their hash to
`processed_hashes` immediately.  Returns the state after the loop, the
collected new records in page order, and whether a `TypeError` aborted the
loop (mutations made before the exception persist; the collected records
are discarded by the surrounding `except`). -/
def classifyPage (s : EngineState) : List Tx → EngineState × List Tx × Bool
  | [] => (s, [], false)
  | tx :: rest =>
    match classifyTx s tx with
    | .crash => (s, [], true)
    | .notNew => classifyPage s rest
    | .isNew =>
      let s' : EngineState :=
        { s with processed_hashes := setInsert (hashKey tx) s.processed_hashes }
      let r := classifyPage s' rest
      (r.1, tx :: r.2.1, r.2.2)

instance : DecidableRel (fun a b : Tx => ltKey a ≤ ltKey b) :=
  fun a b => Int.decLe _ _

instance : IsTotal Tx (fun a b : Tx => ltKey a ≤ ltKey b) :=
  ⟨fun a b => Int.le_total _ _⟩

instance : IsTrans Tx (fun a b : Tx => ltKey a ≤ ltKey b) :=
  ⟨fun a b c hab hbc => le_trans hab hbc⟩

/-- `new_transactions.sort(key=lambda x: int(...lt...0))` (line 124 / 222):
Python `list.sort` is a stable sort on the single key `ltKey`; its result
is modelled by stable insertion sort, which produces the same list as any
stable sort on that key. -/
def sortNew (l : List Tx) : List Tx :=
  l.insertionSort (fun a b => ltKey a ≤ ltKey b)

theorem sortNew_perm (l : List Tx) : (sortNew l).Perm l :=
  List.perm_insertionSort _ _

theorem mem_sortNew {l : List Tx} {x : Tx} : x ∈ sortNew l ↔ x ∈ l :=
  (sortNew_perm l).mem_iff

theorem sortNew_sorted (l : List Tx) :
    (sortNew l).Pairwise (fun a b => ltKey a ≤ ltKey b) :=
  List.sorted_insertionSort _ _

/-- The per-delivery watermark update (lines 131-133 / 228-230):
`if tx_lt and (self.last_lt is None or int(tx_lt) > int(self.last_lt)):
self.last_lt = tx_lt`. -/
def deliverUpdate (w : Option Int) (tx : Tx) : Option Int :=
  match tx.lt with
  | none => w
  | some l =>
    match w with
    | none => some l
    | some w0 => if w0 < l then some l else w

/-- Folding the delivery loop watermark updates over the sorted batch. -/
def deliverAll (w : Option Int) (txs : List Tx) : Option Int :=
  txs.foldl deliverUpdate w

/-- One fetch-and-reconcile cycle body on an already-fetched page: the
body of `check_single_update` (lines 211-230), which is also, line for
line, the `try` body of the polling loop in `check_new_transactions`
(lines 111-133).  Classify, and unless a `TypeError` aborted the loop,
sort the new records ascending by `ltKey` and deliver them in that order
(the `print` calls), updating the watermark per delivered record.
Returns the new state and the delivered sequence.  On a crash nothing is
delivered (the exception is caught at the cycle boundary) and only the
hash insertions made before the exception survive. -/
def check_single_update (s : EngineState) (page : List Tx) :
    EngineState × List Tx :=
  let c := classifyPage s page
  if c.2.2 then (c.1, [])
  else
    let sorted := sortNew c.2.1
    ({ c.1 with last_lt := deliverAll c.1.last_lt sorted }, sorted)

/-- The baseline block at the top of `check_new_transactions`
(lines 94-104): given the page fetched with `limit=1`, set `last_lt` to
the lt of the first record (an unconditional overwrite) and add every
truthy hash of the page to `processed_hashes`; nothing is printed.  An
empty page leaves the state untouched. -/
def seedBaseline (s : EngineState) (page : List Tx) : EngineState :=
  match page with
  | [] => s
  | first :: _ =>
    { last_lt := first.lt
      processed_hashes :=
        page.foldl
          (fun hs tx => if truthyHash tx then setInsert (hashKey tx) hs else hs)
          s.processed_hashes }

/-- `get_transactions_history` (lines 19-42): a `requests.RequestException`
or a non-`ok` response body is caught inside the function and yields `[]`;
a successful fetch yields the page. -/
def get_transactions_history : Except Unit (List Tx) → List Tx
  | .error _ => []
  | .ok page => page

/-- One iteration of the polling loop `try` body on a fetch outcome. -/
def pollCycle (s : EngineState) (f : Except Unit (List Tx)) :
    EngineState × List Tx :=
  check_single_update s (get_transactions_history f)

/-- The polling loop (`while True`, lines 106-140) run over a finite
prefix of fetch outcomes; every outcome is processed (the `except` at the
cycle boundary swallows in-cycle exceptions, so the loop never exits). -/
def pollLoop (s : EngineState) :
    List (Except Unit (List Tx)) → EngineState × List (List Tx)
  | [] => (s, [])
  | f :: rest =>
    let c := pollCycle s f
    let r := pollLoop c.1 rest
    (r.1, c.2 :: r.2)

/-- `check_new_transactions` (lines 90-140): the baseline seeding on the
initial `limit=1` fetch, then the polling loop over the subsequent fetch
outcomes. -/
def check_new_transactions (s : EngineState)
    (initFetch : Except Unit (List Tx))
    (fetches : List (Except Unit (List Tx))) :
    EngineState × List (List Tx) :=
  pollLoop (seedBaseline s (get_transactions_history initFetch)) fetches

/-- A step of the engine lifetime: either the silent baseline seeding or a
reconcile cycle on a fetched page. -/
inductive StepInput
  | seed (page : List Tx)
  | reconcile (page : List Tx)
deriving Repr

def runStep (s : EngineState) : StepInput → EngineState × List Tx
  | .seed p => (seedBaseline s p, [])
  | .reconcile p => check_single_update s p

/-- A whole run: a sequence of seed/reconcile steps, collecting the
delivery of each step. -/
def runEngine (s : EngineState) : List StepInput → EngineState × List (List Tx)
  | [] => (s, [])
  | i :: rest =>
    let c := runStep s i
    let r := runEngine c.1 rest
    (r.1, c.2 :: r.2)

/-- Result of `websocket_monitor` on a finite script of connection
attempts: `raised` models the `raise` after `max_retries` is reached
(line 204), `pending` models the monitor still being inside its
`while` loop when the script runs out. -/
inductive WsOutcome
  | raised
  | pending
deriving DecidableEq, Repr

/-- `websocket_monitor` (lines 142-204): `retry_count` starts at 0,
`max_retries = 3`.  Each scripted attempt either raises inside the `try`
(`true`: connection failure, `ConnectionClosed`, or any other exception),
incrementing `retry_count` and re-raising once `retry_count` reaches
`max_retries`, or completes without an exception (`false`: a clean close
of the iterator), which loops again without touching `retry_count`. -/
def websocket_monitor (retry_count : Nat) : List Bool → WsOutcome
  | [] => .pending
  | a :: rest =>
    if a then
      if retry_count + 1 < 3 then websocket_monitor (retry_count + 1) rest
      else .raised
    else websocket_monitor retry_count rest

inductive Mode
  | event
  | poll
deriving DecidableEq, Repr

/-- The mode `start_monitoring` (lines 245-252) ends up in:
`asyncio.wait_for(self.websocket_monitor(), timeout=10)` falls through to
`check_new_transactions` (polling, forever) both when the monitor raises
after its retries are exhausted and when the 10-second grace period
elapses first (`timedOut`); otherwise control is still inside the
websocket monitor (event mode).  There is no branch back from
`check_new_transactions` to the websocket code. -/
def start_monitoring_mode (timedOut : Bool) (attempts : List Bool) : Mode :=
  if timedOut then .poll
  else
    match websocket_monitor 0 attempts with
    | .raised => .poll
    | .pending => .event

/-! ### Basic facts about truthiness and set insertion -/

theorem truthy_of_hash {tx : Tx} {h : String} (hh : tx.hash = some h)
    (hne : h ≠ "") : truthyHash tx = true := by
  simp [truthyHash, hh, hne]

theorem hashKey_of_hash {tx : Tx} {h : String} (hh : tx.hash = some h) :
    hashKey tx = h := by
  simp [hashKey, hh]

theorem truthyHash_hash {tx : Tx} (h : truthyHash tx = true) :
    tx.hash = some (hashKey tx) ∧ hashKey tx ≠ "" := by
  rcases htx : tx.hash with _ | v
  · simp [truthyHash, htx] at h
  · simp [truthyHash, htx] at h
    simp [hashKey, htx, h]

theorem mem_setInsert {a b : String} {hs : List String} :
    a ∈ setInsert b hs ↔ a = b ∨ a ∈ hs := by
  by_cases h : b ∈ hs
  · simp only [setInsert, if_pos h]
    constructor
    · exact Or.inr
    · rintro (rfl | h2)
      · exact h
      · exact h2
  · simp [setInsert, if_neg h, List.mem_cons]

theorem mem_setInsert_self {b : String} {hs : List String} :
    b ∈ setInsert b hs :=
  mem_setInsert.mpr (Or.inl rfl)

theorem mem_setInsert_of_mem {a b : String} {hs : List String}
    (h : a ∈ hs) : a ∈ setInsert b hs :=
  mem_setInsert.mpr (Or.inr h)

/-! ### Inversion of the classification condition -/

theorem classifyTx_isNew_iff {s : EngineState} {tx : Tx} :
    classifyTx s tx = .isNew ↔
      truthyHash tx = true ∧ hashKey tx ∉ s.processed_hashes ∧
        ltOkB s.last_lt tx = true := by
  cases ht : truthyHash tx <;>
    by_cases hm : hashKey tx ∈ s.processed_hashes <;>
      rcases hw : s.last_lt with _ | w <;> rcases hl : tx.lt with _ | l <;>
        simp [classifyTx, ltOkB, ht, hm, hw, hl] <;>
          by_cases hwl : w < l <;> simp [hwl]

theorem classifyTx_crash_iff {s : EngineState} {tx : Tx} :
    classifyTx s tx = .crash ↔
      truthyHash tx = true ∧ hashKey tx ∉ s.processed_hashes ∧
        tx.lt = none ∧ ∃ w, s.last_lt = some w := by
  cases ht : truthyHash tx <;>
    by_cases hm : hashKey tx ∈ s.processed_hashes <;>
      rcases hw : s.last_lt with _ | w <;> rcases hl : tx.lt with _ | l <;>
        simp [classifyTx, ltOkB, ht, hm, hw, hl] <;>
          by_cases hwl : w < l <;> simp [hwl]

theorem classifyTx_notNew_of_notTruthy {s : EngineState} {tx : Tx}
    (ht : truthyHash tx = false) : classifyTx s tx = .notNew := by
  simp [classifyTx, ht]

theorem classifyTx_notNew_of_seen {s : EngineState} {tx : Tx}
    (hm : hashKey tx ∈ s.processed_hashes) : classifyTx s tx = .notNew := by
  cases ht : truthyHash tx <;> simp [classifyTx, ht, hm]

theorem classifyTx_notNew_of_le {s : EngineState} {tx : Tx} {w l : Int}
    (hw : s.last_lt = some w) (hl : tx.lt = some l) (h : l ≤ w) :
    classifyTx s tx = .notNew := by
  have hwl : ¬ w < l := by omega
  cases ht : truthyHash tx <;>
    by_cases hm : hashKey tx ∈ s.processed_hashes <;>
      simp [classifyTx, ht, hm, hw, hl, hwl]

/-! ### Structural facts about the classification loop -/

theorem classifyPage_last_lt (page : List Tx) (s : EngineState) :
    (classifyPage s page).1.last_lt = s.last_lt := by
  induction page generalizing s with
  | nil => rfl
  | cons tx rest ih =>
    cases hct : classifyTx s tx <;> simp [classifyPage, hct, ih]

theorem classifyPage_seen_mono (page : List Tx) (s : EngineState)
    {h : String} (hm : h ∈ s.processed_hashes) :
    h ∈ (classifyPage s page).1.processed_hashes := by
  induction page generalizing s with
  | nil => exact hm
  | cons tx rest ih =>
    cases hct : classifyTx s tx
    case notNew => simpa [classifyPage, hct] using ih _ hm
    case isNew =>
      simpa [classifyPage, hct] using ih _ (mem_setInsert_of_mem hm)
    case crash => simpa [classifyPage, hct] using hm

theorem classifyPage_out_mem (page : List Tx) (s : EngineState) {tx : Tx}
    (h : tx ∈ (classifyPage s page).2.1) :
    tx ∈ page ∧ truthyHash tx = true ∧
      hashKey tx ∉ s.processed_hashes ∧ ltOkB s.last_lt tx = true := by
  induction page generalizing s with
  | nil => simp [classifyPage] at h
  | cons hd rest ih =>
    cases hct : classifyTx s hd
    case notNew =>
      simp only [classifyPage, hct] at h
      obtain ⟨h1, h2, h3, h4⟩ := ih _ h
      exact ⟨List.mem_cons_of_mem _ h1, h2, h3, h4⟩
    case isNew =>
      simp only [classifyPage, hct, List.mem_cons] at h
      rcases h with rfl | h
      · obtain ⟨h2, h3, h4⟩ := classifyTx_isNew_iff.mp hct
        exact ⟨List.mem_cons_self _ _, h2, h3, h4⟩
      · obtain ⟨h1, h2, h3, h4⟩ := ih _ h
        refine ⟨List.mem_cons_of_mem _ h1, h2, ?_, h4⟩
        exact fun hmem => h3 (mem_setInsert_of_mem hmem)
    case crash => simp [classifyPage, hct] at h

theorem classifyPage_out_seen (page : List Tx) (s : EngineState) {tx : Tx}
    (h : tx ∈ (classifyPage s page).2.1) :
    hashKey tx ∈ (classifyPage s page).1.processed_hashes := by
  induction page generalizing s with
  | nil => simp [classifyPage] at h
  | cons hd rest ih =>
    cases hct : classifyTx s hd
    case notNew =>
      simp only [classifyPage, hct] at h ⊢
      exact ih _ h
    case isNew =>
      simp only [classifyPage, hct, List.mem_cons] at h ⊢
      rcases h with rfl | h
      · exact classifyPage_seen_mono _ _ mem_setInsert_self
      · exact ih _ h
    case crash => simp [classifyPage, hct] at h

theorem classifyPage_out_nodup (page : List Tx) (s : EngineState) :
    ((classifyPage s page).2.1.map hashKey).Nodup := by
  induction page generalizing s with
  | nil => simp [classifyPage]
  | cons hd rest ih =>
    cases hct : classifyTx s hd
    case notNew => simpa [classifyPage, hct] using ih s
    case isNew =>
      simp only [classifyPage, hct, List.map_cons, List.nodup_cons]
      refine ⟨?_, ih _⟩
      intro hmem
      obtain ⟨tx', htx', hkey⟩ := List.mem_map.mp hmem
      obtain ⟨-, -, h3, -⟩ := classifyPage_out_mem _ _ htx'
      exact h3 (hkey ▸ mem_setInsert_self)
    case crash => simp [classifyPage, hct]

theorem classifyPage_noCrash (page : List Tx) (s : EngineState)
    (hwf : ∀ tx ∈ page, tx.lt.isSome) :
    (classifyPage s page).2.2 = false := by
  induction page generalizing s with
  | nil => rfl
  | cons hd rest ih =>
    cases hct : classifyTx s hd
    case notNew =>
      simpa [classifyPage, hct] using
        ih s (fun tx htx => hwf tx (List.mem_cons_of_mem _ htx))
    case isNew =>
      simpa [classifyPage, hct] using
        ih _ (fun tx htx => hwf tx (List.mem_cons_of_mem _ htx))
    case crash =>
      obtain ⟨-, -, hlt, -⟩ := classifyTx_crash_iff.mp hct
      have := hwf hd (List.mem_cons_self _ _)
      simp [hlt] at this

/-! ### Facts about one reconcile cycle -/

theorem check_single_update_nil (s : EngineState) :
    check_single_update s [] = (s, []) := by
  simp [check_single_update, classifyPage, sortNew, deliverAll]

theorem check_single_update_of_crash {s : EngineState} {page : List Tx}
    (h : (classifyPage s page).2.2 = true) :
    check_single_update s page = ((classifyPage s page).1, []) := by
  simp [check_single_update, h]

theorem check_single_update_of_ok {s : EngineState} {page : List Tx}
    (h : (classifyPage s page).2.2 = false) :
    check_single_update s page =
      ({ (classifyPage s page).1 with
          last_lt :=
            deliverAll (classifyPage s page).1.last_lt
              (sortNew (classifyPage s page).2.1) },
        sortNew (classifyPage s page).2.1) := by
  simp [check_single_update, h]

theorem check_single_update_hashes (s : EngineState) (page : List Tx) :
    (check_single_update s page).1.processed_hashes =
      (classifyPage s page).1.processed_hashes := by
  by_cases h : (classifyPage s page).2.2
  · rw [check_single_update_of_crash h]
  · rw [check_single_update_of_ok (Bool.not_eq_true _ ▸ h)]

theorem check_single_update_seen_mono (s : EngineState) (page : List Tx)
    {h : String} (hm : h ∈ s.processed_hashes) :
    h ∈ (check_single_update s page).1.processed_hashes := by
  rw [check_single_update_hashes]
  exact classifyPage_seen_mono _ _ hm

theorem check_single_update_out_mem {s : EngineState} {page : List Tx}
    {tx : Tx} (h : tx ∈ (check_single_update s page).2) :
    tx ∈ page ∧ truthyHash tx = true ∧
      hashKey tx ∉ s.processed_hashes ∧ ltOkB s.last_lt tx = true := by
  by_cases hc : (classifyPage s page).2.2
  · rw [check_single_update_of_crash hc] at h
    simp at h
  · rw [check_single_update_of_ok (Bool.not_eq_true _ ▸ hc)] at h
    exact classifyPage_out_mem _ _ (mem_sortNew.mp h)

theorem check_single_update_out_seen {s : EngineState} {page : List Tx}
    {tx : Tx} (h : tx ∈ (check_single_update s page).2) :
    hashKey tx ∈ (check_single_update s page).1.processed_hashes := by
  rw [check_single_update_hashes]
  by_cases hc : (classifyPage s page).2.2
  · rw [check_single_update_of_crash hc] at h
    simp at h
  · rw [check_single_update_of_ok (Bool.not_eq_true _ ▸ hc)] at h
    exact classifyPage_out_seen _ _ (mem_sortNew.mp h)

theorem check_single_update_out_nodup (s : EngineState) (page : List Tx) :
    ((check_single_update s page).2.map hashKey).Nodup := by
  by_cases hc : (classifyPage s page).2.2
  · rw [check_single_update_of_crash hc]
    simp
  · rw [check_single_update_of_ok (Bool.not_eq_true _ ▸ hc)]
    have hperm :
        ((sortNew (classifyPage s page).2.1).map hashKey).Perm
          ((classifyPage s page).2.1.map hashKey) :=
      (sortNew_perm _).map hashKey
    exact hperm.nodup_iff.mpr (classifyPage_out_nodup _ _)

/-! ### The watermark fold of the delivery loop -/

/-- Order on optional watermarks: an unset watermark is below everything,
two set watermarks compare by value. -/
def leO : Option Int → Option Int → Bool
  | none, _ => true
  | some _, none => false
  | some a, some b => a ≤ b

theorem leO_refl (w : Option Int) : leO w w = true := by
  cases w <;> simp [leO]

theorem leO_trans {a b c : Option Int} (h1 : leO a b = true)
    (h2 : leO b c = true) : leO a c = true := by
  cases a <;> cases b <;> cases c <;> simp [leO] at * <;> omega

theorem deliverUpdate_mono (w : Option Int) (tx : Tx) :
    leO w (deliverUpdate w tx) = true := by
  rcases hl : tx.lt with _ | l
  · simp [deliverUpdate, hl, leO_refl]
  · rcases w with _ | w0
    · simp [deliverUpdate, hl, leO]
    · by_cases hwl : w0 < l
      · simp only [deliverUpdate, hl, if_pos hwl, leO]
        simp
        omega
      · simp only [deliverUpdate, hl, if_neg hwl]
        exact leO_refl _

theorem deliverUpdate_cases (w : Option Int) (tx : Tx) :
    deliverUpdate w tx = w ∨ deliverUpdate w tx = tx.lt := by
  rcases hl : tx.lt with _ | l
  · exact Or.inl (by simp [deliverUpdate, hl])
  · rcases w with _ | w0
    · exact Or.inr (by simp [deliverUpdate, hl])
    · by_cases hwl : w0 < l
      · exact Or.inr (by simp [deliverUpdate, hl, if_pos hwl])
      · exact Or.inl (by simp [deliverUpdate, hl, if_neg hwl])

theorem deliverAll_mono (txs : List Tx) (w : Option Int) :
    leO w (deliverAll w txs) = true := by
  induction txs generalizing w with
  | nil => exact leO_refl w
  | cons tx rest ih =>
    exact leO_trans (deliverUpdate_mono w tx) (ih (deliverUpdate w tx))

theorem deliverAll_mem (txs : List Tx) (w : Option Int) :
    deliverAll w txs = w ∨ ∃ tx ∈ txs, deliverAll w txs = tx.lt := by
  induction txs generalizing w with
  | nil => exact Or.inl rfl
  | cons tx rest ih =>
    have hstep : deliverAll w (tx :: rest) =
        deliverAll (deliverUpdate w tx) rest := rfl
    rcases ih (deliverUpdate w tx) with h | ⟨tx', htx', h⟩
    · rcases deliverUpdate_cases w tx with h2 | h2
      · exact Or.inl (by rw [hstep, h, h2])
      · exact Or.inr ⟨tx, List.mem_cons_self _ _, by rw [hstep, h, h2]⟩
    · exact Or.inr ⟨tx', List.mem_cons_of_mem _ htx', by rw [hstep, h]⟩

theorem deliverAll_ge {txs : List Tx} {tx : Tx} {l : Int}
    (htx : tx ∈ txs) (hl : tx.lt = some l) (w : Option Int) :
    leO (some l) (deliverAll w txs) = true := by
  induction txs generalizing w with
  | nil => simp at htx
  | cons hd rest ih =>
    rcases List.mem_cons.mp htx with rfl | htx'
    · have hhd : leO (some l) (deliverUpdate w tx) = true := by
        rcases w with _ | w0
        · simp only [deliverUpdate, hl, leO]
          simp
        · by_cases hwl : w0 < l
          · simp only [deliverUpdate, hl, if_pos hwl, leO]
            simp
          · simp only [deliverUpdate, hl, if_neg hwl, leO]
            simp
            omega
      exact leO_trans hhd (deliverAll_mono rest (deliverUpdate w tx))
    · exact ih htx' (deliverUpdate w hd)

/-! ### Facts about the baseline seeding -/

theorem foldl_seed_mono (page : List Tx) (hs : List String) {h : String}
    (hm : h ∈ hs) :
    h ∈ page.foldl
      (fun hs tx => if truthyHash tx then setInsert (hashKey tx) hs else hs)
      hs := by
  induction page generalizing hs with
  | nil => exact hm
  | cons tx rest ih =>
    refine ih _ ?_
    by_cases ht : truthyHash tx <;> simp [ht]
    · exact mem_setInsert_of_mem hm
    · exact hm

theorem foldl_seed_mem {page : List Tx} {tx : Tx} (htx : tx ∈ page)
    (ht : truthyHash tx = true) (hs : List String) :
    hashKey tx ∈ page.foldl
      (fun hs tx => if truthyHash tx then setInsert (hashKey tx) hs else hs)
      hs := by
  induction page generalizing hs with
  | nil => simp at htx
  | cons hd rest ih =>
    rcases List.mem_cons.mp htx with rfl | htx'
    · rw [List.foldl_cons]
      refine foldl_seed_mono _ _ ?_
      rw [if_pos ht]
      exact mem_setInsert_self
    · exact ih htx' _

theorem seedBaseline_seen_mono (s : EngineState) (page : List Tx)
    {h : String} (hm : h ∈ s.processed_hashes) :
    h ∈ (seedBaseline s page).processed_hashes := by
  cases page with
  | nil => exact hm
  | cons first rest => exact foldl_seed_mono _ _ hm

theorem seedBaseline_contains {s : EngineState} {page : List Tx} {tx : Tx}
    (htx : tx ∈ page) (ht : truthyHash tx = true) :
    hashKey tx ∈ (seedBaseline s page).processed_hashes := by
  cases page with
  | nil => simp at htx
  | cons first rest => exact foldl_seed_mem htx ht _

/-! ### Facts about whole runs -/

theorem runStep_seen_mono (s : EngineState) (i : StepInput) {h : String}
    (hm : h ∈ s.processed_hashes) :
    h ∈ (runStep s i).1.processed_hashes := by
  cases i with
  | seed p => exact seedBaseline_seen_mono s p hm
  | reconcile p => exact check_single_update_seen_mono s p hm

theorem runStep_out_fresh {s : EngineState} {i : StepInput} {tx : Tx}
    (h : tx ∈ (runStep s i).2) : hashKey tx ∉ s.processed_hashes := by
  cases i with
  | seed p => simp [runStep] at h
  | reconcile p => exact (check_single_update_out_mem h).2.2.1

theorem runStep_out_seen {s : EngineState} {i : StepInput} {tx : Tx}
    (h : tx ∈ (runStep s i).2) :
    hashKey tx ∈ (runStep s i).1.processed_hashes := by
  cases i with
  | seed p => simp [runStep] at h
  | reconcile p => exact check_single_update_out_seen h

theorem runStep_out_nodup (s : EngineState) (i : StepInput) :
    ((runStep s i).2.map hashKey).Nodup := by
  cases i with
  | seed p => simp [runStep]
  | reconcile p => exact check_single_update_out_nodup s p

theorem runEngine_seen_mono (steps : List StepInput) (s : EngineState)
    {h : String} (hm : h ∈ s.processed_hashes) :
    h ∈ (runEngine s steps).1.processed_hashes := by
  induction steps generalizing s with
  | nil => exact hm
  | cons i rest ih => exact ih _ (runStep_seen_mono s i hm)

theorem runEngine_out_fresh (steps : List StepInput) (s : EngineState)
    {l : List Tx} {tx : Tx} (hl : l ∈ (runEngine s steps).2)
    (htx : tx ∈ l) : hashKey tx ∉ s.processed_hashes := by
  induction steps generalizing s with
  | nil => simp [runEngine] at hl
  | cons i rest ih =>
    simp only [runEngine, List.mem_cons] at hl
    rcases hl with rfl | hl
    · exact runStep_out_fresh htx
    · intro hmem
      exact ih _ hl (runStep_seen_mono s i hmem)

theorem runEngine_join_nodup (steps : List StepInput) (s : EngineState) :
    (((runEngine s steps).2).join.map hashKey).Nodup := by
  induction steps generalizing s with
  | nil => simp [runEngine]
  | cons i rest ih =>
    simp only [runEngine, List.join_cons, List.map_append,
      List.nodup_append]
    refine ⟨runStep_out_nodup s i, ih _, ?_⟩
    intro a ha ha'
    obtain ⟨tx, htx, rfl⟩ := List.mem_map.mp ha
    obtain ⟨tx', htx', hkey⟩ := List.mem_map.mp ha'
    obtain ⟨l, hlmem, htx'mem⟩ := List.mem_join.mp htx'
    have hfresh := runEngine_out_fresh rest _ hlmem htx'mem
    have hseen := runStep_out_seen htx
    rw [hkey] at hfresh
    exact hfresh hseen

/-! ### Counting occurrences of a hash in the delivered batch -/

/-- Whether some record of the page carries hash `h` and passes the
logical-time guard against the current watermark. -/
def hasNewCandidate (s : EngineState) (h : String) (page : List Tx) : Bool :=
  page.any (fun tx => decide (tx.hash = some h) && ltOkB s.last_lt tx)

theorem out_count_zero (page : List Tx) (s : EngineState) {h : String}
    (hm : h ∈ s.processed_hashes) :
    ((classifyPage s page).2.1.map hashKey).count h = 0 := by
  rw [List.count_eq_zero]
  intro hmem
  obtain ⟨tx, htx, hkey⟩ := List.mem_map.mp hmem
  obtain ⟨-, -, h3, -⟩ := classifyPage_out_mem _ _ htx
  exact h3 (by rw [hkey]; exact hm)

theorem classify_count (page : List Tx) :
    ∀ (s : EngineState) (h : String), h ∉ s.processed_hashes → h ≠ "" →
      (∀ tx ∈ page, tx.lt.isSome) →
      ((classifyPage s page).2.1.map hashKey).count h =
        if hasNewCandidate s h page then 1 else 0 := by
  induction page with
  | nil =>
    intro s h hm hne hwf
    simp [classifyPage, hasNewCandidate]
  | cons hd rest ih =>
    intro s h hm hne hwf
    have hwfr : ∀ tx ∈ rest, tx.lt.isSome :=
      fun tx htx => hwf tx (List.mem_cons_of_mem _ htx)
    cases hct : classifyTx s hd
    case crash =>
      obtain ⟨-, -, hlt, -⟩ := classifyTx_crash_iff.mp hct
      have := hwf hd (List.mem_cons_self _ _)
      simp [hlt] at this
    case notNew =>
      have hhd : (decide (hd.hash = some h) && ltOkB s.last_lt hd) = false := by
        by_cases hh : hd.hash = some h
        · by_cases hok : ltOkB s.last_lt hd = true
          · exfalso
            have hnew : classifyTx s hd = .isNew :=
              classifyTx_isNew_iff.mpr
                ⟨truthy_of_hash hh hne,
                  by rw [hashKey_of_hash hh]; exact hm, hok⟩
            rw [hct] at hnew
            simp at hnew
          · simp [Bool.not_eq_true] at hok
            simp [hok]
        · simp [hh]
      have hcand : hasNewCandidate s h (hd :: rest) = hasNewCandidate s h rest := by
        simp only [hasNewCandidate, List.any_cons, hhd, Bool.false_or]
      simp only [classifyPage, hct, hcand]
      exact ih s h hm hne hwfr
    case isNew =>
      obtain ⟨ht, hnm, hok⟩ := classifyTx_isNew_iff.mp hct
      by_cases hh : hashKey hd = h
      · have hd_hash : hd.hash = some h := by
          rw [(truthyHash_hash ht).1, hh]
        have hcand : hasNewCandidate s h (hd :: rest) = true := by
          simp only [hasNewCandidate, List.any_cons, Bool.or_eq_true]
          exact Or.inl (by simp [hd_hash, hok])
        have hzero :
            ((classifyPage
                { s with processed_hashes := setInsert (hashKey hd) s.processed_hashes }
                rest).2.1.map hashKey).count h = 0 :=
          out_count_zero _ _ (by rw [← hh]; exact mem_setInsert_self)
        simp only [classifyPage, hct, List.map_cons, List.count_cons]
        rw [hh] at hzero ⊢
        rw [hzero, hcand]
        simp
      · have hm' : h ∉ setInsert (hashKey hd) s.processed_hashes := by
          rw [mem_setInsert]
          rintro (rfl | hmem)
          · exact hh rfl
          · exact hm hmem
        have hhd : (decide (hd.hash = some h) && ltOkB s.last_lt hd) = false := by
          have : hd.hash ≠ some h := by
            rw [(truthyHash_hash ht).1]
            intro hc
            exact hh (Option.some.injEq _ _ ▸ hc)
          simp [this]
        have hcand : hasNewCandidate s h (hd :: rest) = hasNewCandidate s h rest := by
          simp only [hasNewCandidate, List.any_cons, hhd, Bool.false_or]
        simp only [classifyPage, hct, List.map_cons, List.count_cons, hcand]
        have hcnt := ih
          { s with processed_hashes := setInsert (hashKey hd) s.processed_hashes }
          h hm' hne hwfr
        have hstate : hasNewCandidate
            { s with processed_hashes := setInsert (hashKey hd) s.processed_hashes }
            h rest = hasNewCandidate s h rest := rfl
        rw [hcnt, hstate]
        have hbeq : (hashKey hd == h) = false := by
          simp only [beq_eq_false_iff_ne, ne_eq]
          exact hh
        rw [hbeq]
        simp

theorem check_single_update_count (s : EngineState) (page : List Tx)
    (h : String) (hne : h ≠ "") (hwf : ∀ tx ∈ page, tx.lt.isSome) :
    ((check_single_update s page).2.map hashKey).count h =
      if h ∉ s.processed_hashes ∧ hasNewCandidate s h page = true then 1
      else 0 := by
  have hc := classifyPage_noCrash page s hwf
  rw [check_single_update_of_ok hc]
  have hperm :
      ((sortNew (classifyPage s page).2.1).map hashKey).Perm
        ((classifyPage s page).2.1.map hashKey) :=
    (sortNew_perm _).map hashKey
  simp only [hperm.count_eq]
  by_cases hm : h ∈ s.processed_hashes
  · rw [out_count_zero _ _ hm]
    simp [hm]
  · rw [classify_count page s h hm hne hwf]
    simp [hm]

/-! ### Order of the delivered batch -/

theorem check_single_update_sorted (s : EngineState) (page : List Tx) :
    ((check_single_update s page).2).Pairwise
      (fun a b => ltKey a ≤ ltKey b) := by
  by_cases hc : (classifyPage s page).2.2
  · rw [check_single_update_of_crash hc]
    simp
  · rw [check_single_update_of_ok (Bool.not_eq_true _ ▸ hc)]
    exact sortNew_sorted _

theorem check_single_update_perm (s : EngineState) (page : List Tx) :
    ((check_single_update s page).2).Perm
      (if (classifyPage s page).2.2 = true then []
        else (classifyPage s page).2.1) := by
  by_cases hc : (classifyPage s page).2.2
  · rw [check_single_update_of_crash hc, if_pos hc]
  · rw [check_single_update_of_ok (Bool.not_eq_true _ ▸ hc),
      if_neg (by simp [hc])]
    exact sortNew_perm _

/-! ### Records with a missing or empty hash are invisible -/

theorem classifyPage_skip {tx : Tx} (ht : truthyHash tx = false)
    (pre post : List Tx) (s : EngineState) :
    classifyPage s (pre ++ tx :: post) = classifyPage s (pre ++ post) := by
  induction pre generalizing s with
  | nil =>
    simp only [List.nil_append]
    simp [classifyPage, classifyTx_notNew_of_notTruthy ht]
  | cons hd rest ih =>
    simp only [List.cons_append]
    cases hct : classifyTx s hd <;> simp [classifyPage, hct, ih]

theorem check_single_update_skip {tx : Tx} (ht : truthyHash tx = false)
    (pre post : List Tx) (s : EngineState) :
    check_single_update s (pre ++ tx :: post) =
      check_single_update s (pre ++ post) := by
  unfold check_single_update
  rw [classifyPage_skip ht]

/-! ### A page every record of which classifies as not-new is a no-op -/

theorem classifyPage_allNotNew (page : List Tx) :
    ∀ s : EngineState, (∀ tx ∈ page, classifyTx s tx = .notNew) →
      classifyPage s page = (s, [], false) := by
  induction page with
  | nil => intro s _; rfl
  | cons hd rest ih =>
    intro s h
    have hhd := h hd (List.mem_cons_self _ _)
    simp only [classifyPage, hhd]
    exact ih s (fun tx htx => h tx (List.mem_cons_of_mem _ htx))

theorem check_single_update_allNotNew (page : List Tx) (s : EngineState)
    (h : ∀ tx ∈ page, classifyTx s tx = .notNew) :
    check_single_update s page = (s, []) := by
  unfold check_single_update
  rw [classifyPage_allNotNew page s h]
  simp [sortNew, deliverAll]

/-! ### Watermark evolution across one cycle -/

theorem lt_eq_ltKey {tx : Tx} (h : tx.lt.isSome) : tx.lt = some (ltKey tx) := by
  rcases htx : tx.lt with _ | l
  · rw [htx] at h; simp at h
  · simp [ltKey, htx]

theorem check_single_update_last_lt_mono (s : EngineState) (page : List Tx) :
    leO s.last_lt (check_single_update s page).1.last_lt = true := by
  by_cases hc : (classifyPage s page).2.2
  · rw [check_single_update_of_crash hc]
    rw [classifyPage_last_lt]
    exact leO_refl _
  · rw [check_single_update_of_ok (Bool.not_eq_true _ ▸ hc)]
    show leO s.last_lt
      (deliverAll (classifyPage s page).1.last_lt
        (sortNew (classifyPage s page).2.1)) = true
    rw [classifyPage_last_lt]
    exact deliverAll_mono _ _

theorem check_single_update_empty_last_lt {s : EngineState} {page : List Tx}
    (h : (check_single_update s page).2 = []) :
    (check_single_update s page).1.last_lt = s.last_lt := by
  by_cases hc : (classifyPage s page).2.2
  · rw [check_single_update_of_crash hc]
    exact classifyPage_last_lt _ _
  · rw [check_single_update_of_ok (Bool.not_eq_true _ ▸ hc)] at h ⊢
    simp only at h ⊢
    rw [h]
    simp [deliverAll]
    exact classifyPage_last_lt _ _

theorem check_single_update_max {s : EngineState} {page : List Tx}
    (hwf : ∀ tx ∈ page, tx.lt.isSome)
    (hne : (check_single_update s page).2 ≠ []) :
    ∃ m, (check_single_update s page).1.last_lt = some m ∧
      m ∈ (check_single_update s page).2.map ltKey ∧
      (∀ l ∈ (check_single_update s page).2.map ltKey, l ≤ m) ∧
      leO s.last_lt (some m) = true := by
  have hc := classifyPage_noCrash page s hwf
  have heq := check_single_update_of_ok hc
  have hlts : ∀ tx ∈ (check_single_update s page).2, tx.lt = some (ltKey tx) := by
    intro tx htx
    exact lt_eq_ltKey (hwf tx (check_single_update_out_mem htx).1)
  have hW : (check_single_update s page).1.last_lt =
      deliverAll s.last_lt (check_single_update s page).2 := by
    conv_lhs => rw [heq]
    conv_rhs => rw [heq]
    show deliverAll (classifyPage s page).1.last_lt
        (sortNew (classifyPage s page).2.1) =
      deliverAll s.last_lt (sortNew (classifyPage s page).2.1)
    rw [classifyPage_last_lt]
  obtain ⟨hd, hhd⟩ := List.exists_mem_of_ne_nil _ hne
  have hgehd := deliverAll_ge hhd (hlts hd hhd) s.last_lt
  rcases hWv : deliverAll s.last_lt (check_single_update s page).2 with _ | m
  · rw [hWv] at hgehd
    simp [leO] at hgehd
  · refine ⟨m, by rw [hW, hWv], ?_, ?_, ?_⟩
    · rcases deliverAll_mem (check_single_update s page).2 s.last_lt with
        hcase | ⟨tx, htx, hcase⟩
      · exfalso
        have hsl : s.last_lt = some m := hcase.symm.trans hWv
        have hok := (check_single_update_out_mem hhd).2.2.2
        have hlthd := hlts hd hhd
        rw [hsl] at hok
        simp only [ltOkB, hlthd] at hok
        simp at hok
        rw [hWv] at hgehd
        simp [leO] at hgehd
        omega
      · have hlttx := hlts tx htx
        rw [hcase, hlttx] at hWv
        have hmk : ltKey tx = m := Option.some.inj hWv
        rw [← hmk]
        exact List.mem_map_of_mem _ htx
    · intro l hl
      obtain ⟨tx, htx, rfl⟩ := List.mem_map.mp hl
      have hge := deliverAll_ge htx (hlts tx htx) s.last_lt
      rw [hWv] at hge
      simpa [leO] using hge
    · have hmono := deliverAll_mono (check_single_update s page).2 s.last_lt
      rw [hWv] at hmono
      exact hmono

/-! ### Shared helpers for the loop-level claims -/

theorem pollLoop_length (fs : List (Except Unit (List Tx))) (s : EngineState) :
    (pollLoop s fs).2.length = fs.length := by
  induction fs generalizing s with
  | nil => rfl
  | cons f rest ih => simp [pollLoop, ih]

theorem websocket_monitor_three (rest : List Bool) :
    websocket_monitor 0 (true :: true :: true :: rest) = .raised := by
  simp [websocket_monitor]

/-! ## The claims -/

/-- Claim C1: across every run of the detection loop (any sequence of
seed/reconcile steps on arbitrary, possibly overlapping pages, including a
page holding the same hash twice), the hashes delivered to the sink have
no repeats; and a record is delivered by a cycle only if its hash is
absent from the seen-set at the start of that cycle (hence, together with
the no-repeat part, absent at classification time) and the logical-time
guard against the watermark at the start of the cycle holds. -/
theorem claim_C1_at_most_once :
    (∀ (s : EngineState) (steps : List StepInput),
      (((runEngine s steps).2).join.map hashKey).Nodup) ∧
    (∀ (s : EngineState) (page : List Tx) (tx : Tx),
      tx ∈ (check_single_update s page).2 →
        hashKey tx ∉ s.processed_hashes ∧ ltOkB s.last_lt tx = true) := by
  refine ⟨fun s steps => runEngine_join_nodup steps s, fun s page tx h => ?_⟩
  exact ⟨(check_single_update_out_mem h).2.2.1,
    (check_single_update_out_mem h).2.2.2⟩

/-- Witness for C1 at a concrete input: the single record of a singleton
page is delivered, so its hash was fresh and passed the watermark guard. -/
theorem claim_C1_witness :
    hashKey ⟨some "a", some 5⟩ ∉ initState.processed_hashes ∧
      ltOkB initState.last_lt ⟨some "a", some 5⟩ = true :=
  claim_C1_at_most_once.2 initState [⟨some "a", some 5⟩]
    ⟨some "a", some 5⟩ (by decide)

/-- Claim C2: for every state and fetched page of records that carry a
logical time, a hash appears in the delivered batch exactly once iff it is
not in the seen-set and some record of the page carries it and passes the
logical-time guard against the watermark at fetch time, and zero times
otherwise — the count is independent of the native page order; moreover
every delivered record comes from the page, was unseen, and passed the
guard. -/
theorem claim_C2_reconcile_membership :
    (∀ (s : EngineState) (page : List Tx) (h : String),
      (∀ tx ∈ page, tx.lt.isSome) → h ≠ "" →
      ((check_single_update s page).2.map hashKey).count h =
        if h ∉ s.processed_hashes ∧ hasNewCandidate s h page = true then 1
        else 0) ∧
    (∀ (s : EngineState) (page : List Tx) (tx : Tx),
      tx ∈ (check_single_update s page).2 →
        tx ∈ page ∧ hashKey tx ∉ s.processed_hashes ∧
          ltOkB s.last_lt tx = true) := by
  refine ⟨fun s page h hwf hne => check_single_update_count s page h hne hwf,
    fun s page tx h => ?_⟩
  obtain ⟨h1, -, h3, h4⟩ := check_single_update_out_mem h
  exact ⟨h1, h3, h4⟩

/-- Witness for C2 at a concrete input: with watermark 100 and hash "a"
already seen, the page [a@105, b@106] delivers hash "b" exactly once. -/
theorem claim_C2_witness :
    ((check_single_update ⟨some 100, ["a"]⟩
        [⟨some "a", some 105⟩, ⟨some "b", some 106⟩]).2.map hashKey).count "b"
      = 1 := by
  have h := claim_C2_reconcile_membership.1 ⟨some 100, ["a"]⟩
    [⟨some "a", some 105⟩, ⟨some "b", some 106⟩] "b" (by decide) (by decide)
  rw [h]
  decide

/-- Counterexample to C3: the sort is stable on the single key `ltKey`,
so two new records sharing a logical time are delivered in the page order,
not in hash order: the output for the page [b@5, a@5] differs from the
output for the same set of records in the order [a@5, b@5], so the
delivery order of equal logical times is not independent of the native
order and ties are not broken by hash. -/
theorem claim_C3_counterexample :
    (check_single_update initState
        [⟨some "b", some 5⟩, ⟨some "a", some 5⟩]).2
      = [⟨some "b", some 5⟩, ⟨some "a", some 5⟩] ∧
    (check_single_update initState
        [⟨some "a", some 5⟩, ⟨some "b", some 5⟩]).2
      = [⟨some "a", some 5⟩, ⟨some "b", some 5⟩] ∧
    ([(⟨some "b", some 5⟩ : Tx), ⟨some "a", some 5⟩] ≠
      [⟨some "a", some 5⟩, ⟨some "b", some 5⟩]) := by
  refine ⟨by decide, by decide, by decide⟩

/-- Claim C3 as amended: the delivered batch is non-decreasing in the sort
key `ltKey` and is a permutation of the classified new subset (so
duplicate logical times are delivered, not crashed on); the sort is
stable, so records with equal logical times keep their page order (shown
on a concrete duplicate-lt page) rather than being reordered by hash. -/
theorem claim_C3_amended :
    (∀ (s : EngineState) (page : List Tx),
      ((check_single_update s page).2).Pairwise
        (fun a b => ltKey a ≤ ltKey b)) ∧
    (∀ (s : EngineState) (page : List Tx),
      ((check_single_update s page).2).Perm
        (if (classifyPage s page).2.2 = true then []
          else (classifyPage s page).2.1)) ∧
    (check_single_update initState
        [⟨some "d", some 5⟩, ⟨some "c", some 5⟩]).2
      = [⟨some "d", some 5⟩, ⟨some "c", some 5⟩] := by
  exact ⟨fun s page => check_single_update_sorted s page,
    fun s page => check_single_update_perm s page, by decide⟩

/-- Counterexample to C4: the baseline seeding overwrites the watermark
with the logical time of the first entry of its page unconditionally, and
in `start_monitoring` it runs after the startup reconcile, so across the
code's own seed/reconcile sequence the watermark can decrease: after a
reconcile sets it to 100, seeding with a page headed by lt 50 lowers it
to 50. -/
theorem claim_C4_counterexample :
    (runEngine initState
        [.reconcile [⟨some "a", some 100⟩]]).1.last_lt = some 100 ∧
    (runEngine initState
        [.reconcile [⟨some "a", some 100⟩],
          .seed [⟨some "b", some 50⟩]]).1.last_lt = some 50 ∧
    (50 : Int) < 100 := by
  refine ⟨by decide, by decide, by decide⟩

/-- Claim C4 as amended: a reconcile cycle never decreases the watermark;
after a cycle delivering a non-empty batch of records carrying logical
times, the watermark equals the maximum delivered logical time, which is
at least the prior watermark; a cycle that delivers nothing leaves the
watermark unchanged; the baseline seeding, however, overwrites the
watermark with the logical time of the first entry of its page
unconditionally, which is what allows the decrease exhibited in the
counterexample. -/
theorem claim_C4_amended :
    (∀ (s : EngineState) (page : List Tx),
      leO s.last_lt (check_single_update s page).1.last_lt = true) ∧
    (∀ (s : EngineState) (page : List Tx),
      (∀ tx ∈ page, tx.lt.isSome) → (check_single_update s page).2 ≠ [] →
      ∃ m, (check_single_update s page).1.last_lt = some m ∧
        m ∈ (check_single_update s page).2.map ltKey ∧
        (∀ l ∈ (check_single_update s page).2.map ltKey, l ≤ m) ∧
        leO s.last_lt (some m) = true) ∧
    (∀ (s : EngineState) (page : List Tx),
      (check_single_update s page).2 = [] →
        (check_single_update s page).1.last_lt = s.last_lt) ∧
    (∀ (s : EngineState) (tx : Tx) (rest : List Tx),
      (seedBaseline s (tx :: rest)).last_lt = tx.lt) := by
  refine ⟨fun s page => check_single_update_last_lt_mono s page,
    fun s page hwf hne => check_single_update_max hwf hne,
    fun s page h => check_single_update_empty_last_lt h,
    fun s tx rest => rfl⟩

/-- Witness for the amended C4 at concrete inputs: from watermark 100, the
page [b@120] delivers a non-empty batch whose maximum logical time 120
becomes the watermark, and a page at or below the watermark delivers
nothing and leaves the watermark at 100. -/
theorem claim_C4_witness :
    (∃ m, (check_single_update ⟨some 100, []⟩
        [⟨some "b", some 120⟩]).1.last_lt = some m ∧
      m ∈ (check_single_update ⟨some 100, []⟩
          [⟨some "b", some 120⟩]).2.map ltKey ∧
      (∀ l ∈ (check_single_update ⟨some 100, []⟩
          [⟨some "b", some 120⟩]).2.map ltKey, l ≤ m) ∧
      leO (some 100) (some m) = true) ∧
    (check_single_update ⟨some 100, []⟩
        [⟨some "c", some 90⟩]).1.last_lt = some 100 :=
  ⟨claim_C4_amended.2.1 ⟨some 100, []⟩ [⟨some "b", some 120⟩]
      (by decide) (by decide),
    claim_C4_amended.2.2.1 ⟨some 100, []⟩ [⟨some "c", some 90⟩] (by decide)⟩

/-- Counterexample to C5: the startup initialization of
`start_monitoring` (line 243) is a plain `check_single_update` from the
fresh state, and from the fresh state (unset watermark, empty seen-set)
every fetched record classifies as new, so "seeding" at startup delivers
the pre-existing page instead of delivering nothing. -/
theorem claim_C5_counterexample :
    (check_single_update initState [⟨some "a", some 100⟩]).2
      = [⟨some "a", some 100⟩] ∧
    [(⟨some "a", some 100⟩ : Tx)] ≠ [] := by
  refine ⟨by decide, by decide⟩

/-- Claim C5 as amended: the silent seeding lives at the top of the
polling loop, not at startup: the baseline installs the watermark as the
logical time of the first (in the API, newest) entry of its page, records
the fetched hashes without delivering anything, and a reconcile
immediately following it on the same page delivers nothing and leaves the
state unchanged; an empty baseline page is a no-op.  The startup
initialization in `start_monitoring`, by contrast, reconciles from the
empty state and therefore reports the initial page. -/
theorem claim_C5_amended :
    (∀ (s : EngineState) (page : List Tx),
      check_single_update (seedBaseline s page) page =
        (seedBaseline s page, [])) ∧
    (∀ (s : EngineState) (tx : Tx) (rest : List Tx),
      (seedBaseline s (tx :: rest)).last_lt = tx.lt) ∧
    (∀ s : EngineState, seedBaseline s [] = s) := by
  refine ⟨fun s page => ?_, fun s tx rest => rfl, fun s => rfl⟩
  apply check_single_update_allNotNew
  intro tx htx
  by_cases ht : truthyHash tx = true
  · exact classifyTx_notNew_of_seen (seedBaseline_contains htx ht)
  · exact classifyTx_notNew_of_notTruthy (by simpa using ht)

/-- Counterexample to C6: a record with a hash but no logical time makes
`int(tx_lt)` raise while the watermark is set; the exception aborts the
whole cycle, so the well-formed record good@200 of the same page — which
classifies as new — is not delivered (and its hash is even marked as
processed before the crash, so it is lost for later cycles too). -/
theorem claim_C6_counterexample :
    check_single_update ⟨some 100, []⟩
        [⟨some "good", some 200⟩, ⟨some "bad", none⟩]
      = (⟨some 100, ["good"]⟩, []) ∧
    classifyTx ⟨some 100, []⟩ ⟨some "good", some 200⟩ = .isNew := by
  refine ⟨by decide, by decide⟩

/-- Claim C6 as amended: a record carrying a hash but no logical time
raises during classification whenever the watermark is set and the hash is
fresh; the crashed cycle delivers nothing and leaves the watermark
untouched (the exception is caught at the cycle boundary, so the loop
itself survives); and when the watermark is unset such a record is not
skipped but classified as new and delivered. -/
theorem claim_C6_amended :
    (∀ (w : Int) (seen : List String) (h : String), h ≠ "" → h ∉ seen →
      classifyTx ⟨some w, seen⟩ ⟨some h, none⟩ = .crash) ∧
    (∀ (s : EngineState) (page : List Tx),
      (classifyPage s page).2.2 = true →
        (check_single_update s page).2 = [] ∧
        (check_single_update s page).1.last_lt = s.last_lt) ∧
    check_single_update ⟨none, []⟩ [⟨some "x", none⟩]
      = (⟨none, ["x"]⟩, [⟨some "x", none⟩]) := by
  refine ⟨fun w seen h hne hm => ?_, fun s page hcr => ?_, by decide⟩
  · refine classifyTx_crash_iff.mpr ⟨truthy_of_hash rfl hne, ?_, rfl, w, rfl⟩
    rw [hashKey_of_hash rfl]
    exact hm
  · rw [check_single_update_of_crash hcr]
    exact ⟨rfl, classifyPage_last_lt _ _⟩

/-- Witness for the amended C6 at concrete inputs: with watermark 100 the
record bad@(no lt) crashes classification, and the crashed cycle on the
page [bad] delivers nothing and keeps the watermark at 100. -/
theorem claim_C6_witness :
    classifyTx ⟨some 100, []⟩ ⟨some "bad", none⟩ = .crash ∧
    ((check_single_update ⟨some 100, []⟩ [⟨some "bad", none⟩]).2 = [] ∧
      (check_single_update ⟨some 100, []⟩
          [⟨some "bad", none⟩]).1.last_lt = some 100) :=
  ⟨claim_C6_amended.1 100 [] "bad" (by decide) (by decide),
    claim_C6_amended.2.1 ⟨some 100, []⟩ [⟨some "bad", none⟩] (by decide)⟩

/-- Claim C7: a failed fetch yields the empty page, so the failing polling
cycle delivers nothing and leaves the engine state (watermark and
seen-set) unchanged; a run with a failed fetch interleaved is the run
without it plus one empty delivery; and the loop processes every scheduled
cycle — no in-cycle error terminates it. -/
theorem claim_C7_fetch_failure_not_fatal :
    (∀ s : EngineState, pollCycle s (.error ()) = (s, [])) ∧
    (∀ (s : EngineState) (rest : List (Except Unit (List Tx))),
      pollLoop s (.error () :: rest) =
        ((pollLoop s rest).1, [] :: (pollLoop s rest).2)) ∧
    (∀ (s : EngineState) (fs : List (Except Unit (List Tx))),
      (pollLoop s fs).2.length = fs.length) := by
  refine ⟨fun s => check_single_update_nil s, fun s rest => ?_,
    fun s fs => pollLoop_length fs s⟩
  simp [pollLoop, pollCycle, get_transactions_history,
    check_single_update_nil]

/-- Claim C8: three consecutive websocket connection failures exhaust
`max_retries` and make `websocket_monitor` raise without examining any
later attempt, after which (as also after the 10-second startup grace
period) `start_monitoring` is in polling mode for the rest of the run —
there is no path back to the websocket — and the polling loop keeps
producing one reconcile per scheduled fetch on its own. -/
theorem claim_C8_fallback_to_polling :
    (∀ rest : List Bool,
      websocket_monitor 0 (true :: true :: true :: rest) = .raised) ∧
    (∀ (t : Bool) (rest : List Bool),
      start_monitoring_mode t (true :: true :: true :: rest) = .poll) ∧
    (∀ attempts : List Bool, start_monitoring_mode true attempts = .poll) ∧
    (∀ (s : EngineState) (f0 : Except Unit (List Tx))
        (fs : List (Except Unit (List Tx))),
      (check_new_transactions s f0 fs).2.length = fs.length) := by
  refine ⟨websocket_monitor_three, fun t rest => ?_, fun attempts => rfl,
    fun s f0 fs => pollLoop_length fs _⟩
  cases t
  · simp [start_monitoring_mode, websocket_monitor_three]
  · rfl

/-- Counterexample to C9: `processed_hashes` is a plain ever-growing set:
after a reconcile at lt 1 and a reconcile at lt 1000000000 the hash seen
at lt 1 is still retained although its logical time is a billion below
the watermark — there is no trailing recency window of any width, and
nothing is ever evicted. -/
theorem claim_C9_counterexample :
    (runEngine initState
        [.reconcile [⟨some "a", some 1⟩],
          .reconcile [⟨some "b", some 1000000000⟩]]).1
      = ⟨some 1000000000, ["b", "a"]⟩ ∧
    "a" ∈ (runEngine initState
        [.reconcile [⟨some "a", some 1⟩],
          .reconcile [⟨some "b", some 1000000000⟩]]).1.processed_hashes := by
  refine ⟨by decide, by decide⟩

/-- Claim C9 as amended: the seen-set is unbounded and monotone — every
hash present in the seen-set is still present after any sequence of
seed/reconcile steps; no pruning to a recency window of the watermark ever
happens. -/
theorem claim_C9_amended :
    ∀ (s : EngineState) (steps : List StepInput) (h : String),
      h ∈ s.processed_hashes →
        h ∈ (runEngine s steps).1.processed_hashes :=
  fun s steps h hm => runEngine_seen_mono steps s hm

/-- Witness for the amended C9 at a concrete input: hash "a", already in
the seen-set, is still there after a further reconcile step. -/
theorem claim_C9_witness :
    "a" ∈ (runEngine ⟨none, ["a"]⟩
        [.reconcile [⟨some "b", some 7⟩]]).1.processed_hashes :=
  claim_C9_amended ⟨none, ["a"]⟩ [.reconcile [⟨some "b", some 7⟩]] "a"
    (by decide)

/-- Claim C10: a record whose hash is missing (`None`) or empty is
invisible to a reconcile cycle — removing it from the page changes neither
the resulting state (watermark and seen-set) nor the delivered batch,
whatever its logical time — and every delivered record has a truthy
hash. -/
theorem claim_C10_missing_hash_skipped :
    (∀ (s : EngineState) (pre post : List Tx) (l : Option Int),
      check_single_update s (pre ++ ⟨none, l⟩ :: post) =
        check_single_update s (pre ++ post)) ∧
    (∀ (s : EngineState) (pre post : List Tx) (l : Option Int),
      check_single_update s (pre ++ ⟨some "", l⟩ :: post) =
        check_single_update s (pre ++ post)) ∧
    (∀ (s : EngineState) (page : List Tx) (tx : Tx),
      tx ∈ (check_single_update s page).2 → truthyHash tx = true) := by
  refine ⟨fun s pre post l => @check_single_update_skip ⟨none, l⟩ rfl pre post s,
    fun s pre post l => @check_single_update_skip ⟨some "", l⟩ rfl pre post s,
    fun s page tx h => (check_single_update_out_mem h).2.1⟩

/-- Witness for C10 at a concrete input: the record delivered from a
singleton page has a truthy hash. -/
theorem claim_C10_witness : truthyHash ⟨some "c", some 9⟩ = true :=
  claim_C10_missing_hash_skipped.2.2 initState [⟨some "c", some 9⟩]
    ⟨some "c", some 9⟩ (by decide)

end TonTrack
